import Mathlib

/-!
Verification of the `ddspsynth` spectral-analysis / synthesis core.

The source files `ddspsynth/spectral.py` and `ddspsynth/modules/generators.py`
are embedded shallowly over `ℚ`.  Calls into the external numeric substrate
(torch's `stft`, `log10`, `sqrt`, `sin`, `rand`, librosa's A-weighting curve,
the inverse FFT used for FIR design) are modelled as components of an abstract
`Substrate` record, following the specification's decision to treat the tensor
library as a black box.  Floating-point division by zero, which poisons the
result with NaN in the reference implementation, is modelled with `Option ℚ`
(`none` = NaN) in the places where the sources can divide by zero.
-/

namespace DDSPSynth

/-- A rational-with-NaN value: models a floating-point number where an invalid
operation (0/0) poisons the result, as in the reference implementation. -/
abbrev QF := Option ℚ

/-- Addition with NaN propagation. -/
def qfAdd : QF → QF → QF
  | some a, some b => some (a + b)
  | _, _ => none

/-- Multiplication with NaN propagation (NaN times anything is NaN, matching
IEEE semantics where even `0 * NaN = NaN`). -/
def qfMul : QF → QF → QF
  | some a, some b => some (a * b)
  | _, _ => none

/-- Division: division by zero produces NaN (the degenerate case exercised by
the sources is `0 / 0`). -/
def qfDiv : QF → QF → QF
  | some a, some b => if b = 0 then none else some (a / b)
  | _, _ => none

/-- Sum of a list of `QF` values, with NaN propagation. -/
def qfSum (l : List QF) : QF := l.foldl qfAdd (some 0)

/-- Mean of a list of rationals: sum divided by length (`0` on the empty
list, since `0 / 0 = 0` in `ℚ`). -/
def qmean (l : List ℚ) : ℚ := l.sum / l.length

/-- Modelled from the spec: `pad_or_trim_to_expected_length` from
`ddspsynth.util` (the `util` module is not among the sources): truncates the
excess, or right-pads with `pad_value`, so that the result has length exactly
`expected_len`. -/
def pad_or_trim_to_expected_length {α : Type} (x : List α) (expected_len : ℕ)
    (pad_value : α) : List α :=
  x.take expected_len ++ List.replicate (expected_len - x.length) pad_value

/-- The external numeric substrate: the functions the sources call in torch /
librosa, plus the one constant of the missing `util` module that the loss uses.
`stft b size hop audio` returns the complex STFT as a frames-major matrix of
`(re, im)` pairs (`b` records whether a Hann window was passed).  `sinQ`
models `x ↦ sin (2 π x)` (phases are kept in cycles), `logQ` models `log10`,
`sqrtQ` models `sqrt`, `aWeight sr n_fft` the A-weighting curve at the STFT
bin frequencies, `randQ b i` the uniform noise sample at batch `b`, index `i`,
`idftQ` the zero-phase impulse-response design step of `fir_filter`, and
`epsLog` the epsilon of `util.log_eps`. -/
structure Substrate where
  stft : Bool → ℕ → ℕ → List ℚ → List (List (ℚ × ℚ))
  logQ : ℚ → ℚ
  sqrtQ : ℚ → ℚ
  sinQ : ℚ → ℚ
  aWeight : ℕ → ℕ → List ℚ
  randQ : ℕ → ℕ → ℚ
  idftQ : List ℚ → List ℚ
  epsLog : ℚ

/-- The helper `amp` from `spectral.py`: squared magnitude of a complex value given as a
`(re, im)` pair. -/
def ampQ (z : ℚ × ℚ) : ℚ := z.1 * z.1 + z.2 * z.2

/-- One spectrogram of `MultiscaleFFT` (`spectral.py`, lines 80–83): the
squared-magnitude STFT of the batched audio at one window size, with
`hop_length = int ((1 - overlap) * size)`; flattened to a list of bins, since
the loss only ever reduces over all elements. -/
def specOfSize (S : Substrate) (audio : List (List ℚ)) (size : ℕ)
    (overlap : ℚ) : List ℚ :=
  let hop := (Int.floor ((1 - overlap) * (size : ℚ))).toNat
  (audio.map (fun a => ((S.stft true size hop a).flatten).map ampQ)).flatten

/-- Embedding of `MultiscaleFFT` (`spectral.py`): one squared-magnitude spectrogram per
configured fft size. -/
def MultiscaleFFT (S : Substrate) (audio : List (List ℚ)) (sizes : List ℕ)
    (overlap : ℚ) : List (List ℚ) :=
  sizes.map (fun size => specOfSize S audio size overlap)

/-- Modelled from the spec: `util.log_eps` (not among the sources): the log of
its argument plus a small epsilon. -/
def log_eps (S : Substrate) (x : ℚ) : ℚ := S.logQ (x + S.epsLog)

/-- Pointwise absolute distance (`F.l1_loss` integrand). -/
def l1d (a b : ℚ) : ℚ := |a - b|

/-- Pointwise squared distance (`F.mse_loss` integrand). -/
def msed (a b : ℚ) : ℚ := (a - b) ^ 2

/-- Pointwise smooth-absolute distance (`F.smooth_l1_loss` integrand,
`beta = 1`). -/
def smoothl1d (a b : ℚ) : ℚ :=
  if |a - b| < 1 then (a - b) ^ 2 / 2 else |a - b| - 1 / 2

/-- Embedding of `SpectralLoss.loss_func` (`spectral.py`, lines 180–186): the mean-reduced
distance for a supported `loss_type`; the function falls through and returns
no value for any other string (Python returns `None`). -/
def loss_func (loss_type : String) (input target : List ℚ) : Option ℚ :=
  if loss_type = "L1" then some (qmean (List.zipWith l1d input target))
  else if loss_type = "MSE" then some (qmean (List.zipWith msed input target))
  else if loss_type = "smooth_L1" then
    some (qmean (List.zipWith smoothl1d input target))
  else none

/-- Construction-time configuration of `SpectralLoss`, with the source's
default values.  No validation of any kind happens at construction. -/
structure SpectralLossCfg where
  fft_sizes : List ℕ := [64, 128, 256, 512, 1024, 2048]
  overlap : ℚ := 3 / 4
  sample_rate : ℕ := 16000
  mag_w : ℚ := 1
  log_mag_w : ℚ := 1
  loud_w : ℚ := 0

/-- Embedding of `compute_loudness` (`spectral.py`, lines 86–136) for one audio example,
with the batched path applied per element: STFT (no window argument), squared
magnitude, amplitude `sqrt (amp + 1e-5)`, dB `20 * log10 (amplitude + 1e-5)`,
plus A-weighting, minus `ref_db`, clamped below at `-range_db`, averaged over
frequency bins, then padded with `-range_db` or trimmed to
`int (n_secs * frame_rate)` frames. -/
def compute_loudness (S : Substrate) (audio : List ℚ)
    (sample_rate frame_rate n_fft : ℕ) (range_db ref_db : ℚ) : List ℚ :=
  let hop := sample_rate / frame_rate
  let s := S.stft false n_fft hop audio
  let amplitude := s.map (List.map (fun z => S.sqrtQ (ampQ z + 1 / 100000)))
  let power_db := amplitude.map (List.map (fun a => 20 * S.logQ (a + 1 / 100000)))
  let loudness := power_db.map
    (fun row => List.zipWith (· + ·) row (S.aWeight sample_rate n_fft))
  let loudness := loudness.map (List.map (· - ref_db))
  let loudness := loudness.map (List.map (fun v => max v (-range_db)))
  let loudness := loudness.map qmean
  let expected_len := (Int.floor (((audio.length : ℚ) / (sample_rate : ℚ)) * (frame_rate : ℚ))).toNat
  pad_or_trim_to_expected_length loudness expected_len (-range_db)

/-- The body of the per-resolution accumulation loop of `SpectralLoss.forward`
(`spectral.py`, lines 202–207): add the weighted linear-magnitude distance if
`mag_w > 0`, then the weighted log-magnitude distance if `log_mag_w > 0`.
`Option` (NaN-style) propagation models the Python arithmetic on the `None`
that `loss_func` returns for an unsupported loss type. -/
def spectralStep (S : Substrate) (cfg : SpectralLossCfg) (loss_type : String)
    (acc : QF) (p : List ℚ × List ℚ) : QF :=
  let acc1 := if 0 < cfg.mag_w then
      qfAdd acc (qfMul (some cfg.mag_w) (loss_func loss_type p.1 p.2))
    else acc
  if 0 < cfg.log_mag_w then
    qfAdd acc1 (qfMul (some cfg.log_mag_w)
      (loss_func loss_type (p.1.map (log_eps S)) (p.2.map (log_eps S))))
  else acc1

/-- Embedding of `SpectralLoss.forward` (`spectral.py`, lines 188–214): multiscale
spectrograms of both signals, the accumulation loop over resolutions starting
from `0.0`, and the optional loudness term if `loud_w > 0` (the call
`compute_loudness(audio, self.sample_rate)` leaves the remaining arguments at
their defaults `frame_rate=50`, `n_fft=2048`, `range_db=120`, `ref_db=20.7`).
The `reduction` argument is accepted and, as in the source, never used
(`loss_func` hardcodes `'mean'`). -/
def SpectralLoss_forward (S : Substrate) (cfg : SpectralLossCfg)
    (input_audio target_audio : List (List ℚ)) (loss_type : String)
    (_reduction : String) : QF :=
  let specs := MultiscaleFFT S input_audio cfg.fft_sizes cfg.overlap
  let target_specs := MultiscaleFFT S target_audio cfg.fft_sizes cfg.overlap
  let loss := (specs.zip target_specs).foldl (spectralStep S cfg loss_type) (some 0)
  if 0 < cfg.loud_w then
    qfAdd loss (qfMul (some cfg.loud_w)
      (loss_func loss_type
        ((input_audio.map (fun a =>
          compute_loudness S a cfg.sample_rate 50 2048 120 (207 / 10))).flatten)
        ((target_audio.map (fun a =>
          compute_loudness S a cfg.sample_rate 50 2048 120 (207 / 10))).flatten)))
  else loss

/-- The loss type strings `SpectralLoss.loss_func` supports. -/
def SupportedLoss (loss_type : String) : Prop :=
  loss_type = "L1" ∨ loss_type = "MSE" ∨ loss_type = "smooth_L1"

/-- The claim's description of the selected pointwise distance: the
mean-reduced absolute / squared / smooth-absolute distance, by loss type. -/
def pointDist (loss_type : String) (a b : List ℚ) : ℚ :=
  if loss_type = "L1" then qmean (List.zipWith l1d a b)
  else if loss_type = "MSE" then qmean (List.zipWith msed a b)
  else if loss_type = "smooth_L1" then qmean (List.zipWith smoothl1d a b)
  else 0

/-- A trivial instance of the abstract substrate, used to evaluate the
development on concrete inputs. -/
def S0 : Substrate :=
  { stft := fun _ _ _ _ => []
    logQ := id
    sqrtQ := id
    sinQ := id
    aWeight := fun _ _ => []
    randQ := fun _ _ => 0
    idftQ := fun _ => []
    epsLog := 0 }

theorem qfAdd_none_left (x : QF) : qfAdd none x = none := by cases x <;> rfl

theorem qfAdd_none_right (x : QF) : qfAdd x none = none := by cases x <;> rfl

theorem qfMul_some_none (w : ℚ) : qfMul (some w) none = none := rfl

theorem loss_func_supported {lt : String} (h : SupportedLoss lt)
    (a b : List ℚ) : loss_func lt a b = some (pointDist lt a b) := by
  rcases h with h | h | h <;> subst h <;> simp [loss_func, pointDist]

theorem loss_func_unsupported {lt : String} (h : ¬ SupportedLoss lt)
    (a b : List ℚ) : loss_func lt a b = none := by
  unfold SupportedLoss at h
  push_neg at h
  obtain ⟨h1, h2, h3⟩ := h
  simp [loss_func, h1, h2, h3]

theorem qmean_map_self_zero {d : ℚ → ℚ → ℚ} (hd : ∀ x, d x x = 0)
    (a : List ℚ) : qmean (a.map fun x => d x x) = 0 := by
  have hs : (a.map fun x => d x x).sum = 0 := by
    induction a with
    | nil => simp
    | cons x t ih => simp [hd, ih]
  simp [qmean, hs]

theorem pointDist_self (lt : String) (a : List ℚ) : pointDist lt a a = 0 := by
  have h1 : ∀ x : ℚ, l1d x x = 0 := by intro x; simp [l1d]
  have h2 : ∀ x : ℚ, msed x x = 0 := by intro x; simp [msed]
  have h3 : ∀ x : ℚ, smoothl1d x x = 0 := by
    intro x; simp [smoothl1d]
  unfold pointDist
  by_cases e1 : lt = "L1"
  · simp [e1, List.zipWith_same, qmean_map_self_zero h1]
  by_cases e2 : lt = "MSE"
  · simp [e1, e2, List.zipWith_same, qmean_map_self_zero h2]
  by_cases e3 : lt = "smooth_L1"
  · simp [e1, e2, e3, List.zipWith_same, qmean_map_self_zero h3]
  simp [e1, e2, e3]

theorem spectralStep_some {lt : String} (S : Substrate) (cfg : SpectralLossCfg)
    (h : SupportedLoss lt) (c : ℚ) (p : List ℚ × List ℚ) :
    spectralStep S cfg lt (some c) p =
      some (c +
        ((if 0 < cfg.mag_w then cfg.mag_w * pointDist lt p.1 p.2 else 0) +
         (if 0 < cfg.log_mag_w then
            cfg.log_mag_w *
              pointDist lt (p.1.map (log_eps S)) (p.2.map (log_eps S))
          else 0))) := by
  unfold spectralStep
  rw [loss_func_supported h, loss_func_supported h]
  by_cases h1 : 0 < cfg.mag_w <;> by_cases h2 : 0 < cfg.log_mag_w <;>
    simp [h1, h2, qfAdd, qfMul] <;> ring

theorem spectralStep_none (S : Substrate) (cfg : SpectralLossCfg)
    (lt : String) (p : List ℚ × List ℚ) :
    spectralStep S cfg lt none p = none := by
  unfold spectralStep
  by_cases h1 : 0 < cfg.mag_w <;> by_cases h2 : 0 < cfg.log_mag_w <;>
    simp [h1, h2, qfAdd_none_left]

theorem foldl_spectralStep_none (S : Substrate) (cfg : SpectralLossCfg)
    (lt : String) (l : List (List ℚ × List ℚ)) :
    l.foldl (spectralStep S cfg lt) none = none := by
  induction l with
  | nil => rfl
  | cons p t ih => rw [List.foldl_cons, spectralStep_none]; exact ih

theorem foldl_spectralStep_some {lt : String} (S : Substrate)
    (cfg : SpectralLossCfg) (h : SupportedLoss lt)
    (l : List (List ℚ × List ℚ)) (c : ℚ) :
    l.foldl (spectralStep S cfg lt) (some c) =
      some (c + (l.map (fun p =>
        (if 0 < cfg.mag_w then cfg.mag_w * pointDist lt p.1 p.2 else 0) +
        (if 0 < cfg.log_mag_w then
           cfg.log_mag_w *
             pointDist lt (p.1.map (log_eps S)) (p.2.map (log_eps S))
         else 0))).sum) := by
  induction l generalizing c with
  | nil => simp
  | cons p t ih =>
    rw [List.foldl_cons, spectralStep_some S cfg h, ih]
    rw [List.map_cons, List.sum_cons]
    congr 1
    ring

theorem foldl_spectralStep_skip (S : Substrate) (cfg : SpectralLossCfg)
    (lt : String) (h1 : cfg.mag_w ≤ 0) (h2 : cfg.log_mag_w ≤ 0)
    (l : List (List ℚ × List ℚ)) (acc : QF) :
    l.foldl (spectralStep S cfg lt) acc = acc := by
  induction l generalizing acc with
  | nil => rfl
  | cons p t ih =>
    rw [List.foldl_cons]
    have hstep : spectralStep S cfg lt acc p = acc := by
      unfold spectralStep
      rw [if_neg (not_lt.mpr h1), if_neg (not_lt.mpr h2)]
    rw [hstep]; exact ih _

/-- Claim C1: `SpectralLoss.forward` equals, for every pair of audio batches,
the plain sum over the configured `fft_sizes` of `mag_w` times the selected
pointwise distance between the linear-magnitude spectrograms plus `log_mag_w`
times the same distance between the log-magnitude spectrograms, with no
averaging by the number of resolutions; weights `≤ 0` contribute nothing
(stated for `loud_w ≤ 0`, the claim not mentioning a loudness term, and the
default being `0`). -/
theorem spectralLoss_forward_eq_weighted_sum (S : Substrate)
    (cfg : SpectralLossCfg) (input_audio target_audio : List (List ℚ))
    (loss_type reduction : String) (hlt : SupportedLoss loss_type)
    (hloud : cfg.loud_w ≤ 0) :
    SpectralLoss_forward S cfg input_audio target_audio loss_type reduction =
      some ((cfg.fft_sizes.map (fun size =>
        (if 0 < cfg.mag_w then
           cfg.mag_w * pointDist loss_type
             (specOfSize S input_audio size cfg.overlap)
             (specOfSize S target_audio size cfg.overlap)
         else 0) +
        (if 0 < cfg.log_mag_w then
           cfg.log_mag_w * pointDist loss_type
             ((specOfSize S input_audio size cfg.overlap).map (log_eps S))
             ((specOfSize S target_audio size cfg.overlap).map (log_eps S))
         else 0))).sum) := by
  unfold SpectralLoss_forward MultiscaleFFT
  rw [if_neg (not_lt.mpr hloud), List.zip_map',
    foldl_spectralStep_some S cfg hlt, List.map_map]
  rw [zero_add]
  rfl

/-- Witness for C1 at a concrete input (trivial substrate, default
configuration, `L1`). -/
theorem spectralLoss_forward_eq_weighted_sum_witness :
    SpectralLoss_forward S0 {} [[1]] [[0]] "L1" "mean" =
      some ((({} : SpectralLossCfg).fft_sizes.map (fun size =>
        (if 0 < ({} : SpectralLossCfg).mag_w then
           ({} : SpectralLossCfg).mag_w * pointDist "L1"
             (specOfSize S0 [[1]] size ({} : SpectralLossCfg).overlap)
             (specOfSize S0 [[0]] size ({} : SpectralLossCfg).overlap)
         else 0) +
        (if 0 < ({} : SpectralLossCfg).log_mag_w then
           ({} : SpectralLossCfg).log_mag_w * pointDist "L1"
             ((specOfSize S0 [[1]] size ({} : SpectralLossCfg).overlap).map (log_eps S0))
             ((specOfSize S0 [[0]] size ({} : SpectralLossCfg).overlap).map (log_eps S0))
         else 0))).sum) :=
  spectralLoss_forward_eq_weighted_sum S0 {} [[1]] [[0]] "L1" "mean"
    (Or.inl rfl) (le_refl 0)

/-- Claim C8: identical input and target yield zero magnitude loss for
`mag_w = 1`, `log_mag_w = 0`, `loud_w = 0`, for each supported loss type. -/
theorem spectralLoss_self_zero (S : Substrate) (sizes : List ℕ) (overlap : ℚ)
    (sr : ℕ) (x : List (List ℚ)) (loss_type reduction : String)
    (hlt : SupportedLoss loss_type) :
    SpectralLoss_forward S
      { fft_sizes := sizes, overlap := overlap, sample_rate := sr,
        mag_w := 1, log_mag_w := 0, loud_w := 0 } x x loss_type reduction =
      some 0 := by
  unfold SpectralLoss_forward MultiscaleFFT
  rw [if_neg (by norm_num), List.zip_map',
    foldl_spectralStep_some S _ hlt, List.map_map]
  have hz : ∀ y ∈ (sizes.map (fun size =>
      ((fun p : List ℚ × List ℚ =>
        (if 0 < (1 : ℚ) then (1 : ℚ) * pointDist loss_type p.1 p.2 else 0) +
        (if 0 < (0 : ℚ) then
           (0 : ℚ) * pointDist loss_type (p.1.map (log_eps S)) (p.2.map (log_eps S))
         else 0)) ∘ fun size =>
          (specOfSize S x size overlap, specOfSize S x size overlap)) size)),
      y = 0 := by
    intro y hy
    obtain ⟨size, _, rfl⟩ := List.mem_map.mp hy
    simp [Function.comp, pointDist_self]
  rw [List.sum_eq_zero hz]
  norm_num

/-- Witness for C8 at a concrete input. -/
theorem spectralLoss_self_zero_witness :
    SpectralLoss_forward S0
      { fft_sizes := [64], overlap := 3 / 4, sample_rate := 16000,
        mag_w := 1, log_mag_w := 0, loud_w := 0 } [[2, 5]] [[2, 5]]
      "MSE" "mean" = some 0 :=
  spectralLoss_self_zero S0 [64] (3 / 4) 16000 [[2, 5]] "MSE" "mean"
    (Or.inr (Or.inl rfl))

/-- Claim C10: with `mag_w ≤ 0`, `log_mag_w ≤ 0` and `loud_w ≤ 0`, `forward`
returns exactly `0.0` whatever the audio contents and loss type. -/
theorem spectralLoss_all_weights_nonpos_zero (S : Substrate)
    (cfg : SpectralLossCfg) (input_audio target_audio : List (List ℚ))
    (loss_type reduction : String) (h1 : cfg.mag_w ≤ 0)
    (h2 : cfg.log_mag_w ≤ 0) (h3 : cfg.loud_w ≤ 0) :
    SpectralLoss_forward S cfg input_audio target_audio loss_type reduction =
      some 0 := by
  unfold SpectralLoss_forward
  rw [if_neg (not_lt.mpr h3), foldl_spectralStep_skip S cfg loss_type h1 h2]

/-- Witness for C10 at a concrete input. -/
theorem spectralLoss_all_weights_nonpos_zero_witness :
    SpectralLoss_forward S0 { mag_w := 0, log_mag_w := -1 } [[7]] [[8, 9]]
      "garbage" "none" = some 0 :=
  spectralLoss_all_weights_nonpos_zero S0 { mag_w := 0, log_mag_w := -1 }
    [[7]] [[8, 9]] "garbage" "none" (le_refl 0) (by norm_num) (le_refl 0)

/-- Counterexample for C5: with all three weights at `0`, `forward` silently
returns `0.0` for an unsupported loss type instead of failing — no
configuration check exists at construction or first use. -/
theorem spectralLoss_unsupported_silent_zero :
    SpectralLoss_forward S0 { mag_w := 0, log_mag_w := 0 } [[1, 2]] [[3]]
      "totally_bogus" "mean" = some 0 := by
  have h1 : ({ mag_w := 0, log_mag_w := 0 } : SpectralLossCfg).mag_w ≤ 0 :=
    le_refl 0
  have h2 : ({ mag_w := 0, log_mag_w := 0 } : SpectralLossCfg).log_mag_w ≤ 0 :=
    le_refl 0
  unfold SpectralLoss_forward
  rw [if_neg (by norm_num), foldl_spectralStep_skip _ _ _ h1 h2]

/-- Claim C5 (amended): for an unsupported `loss_type`, `forward` fails (the
missing `loss_func` value poisons the arithmetic) whenever some loss branch
actually executes — `fft_sizes` nonempty and `mag_w > 0` or `log_mag_w > 0`,
or `loud_w > 0`; with no branch executing it silently returns `0.0`. -/
theorem spectralLoss_unsupported_fails_when_used (S : Substrate)
    (cfg : SpectralLossCfg) (input_audio target_audio : List (List ℚ))
    (loss_type reduction : String) (h : ¬ SupportedLoss loss_type)
    (htrig : (cfg.fft_sizes ≠ [] ∧ (0 < cfg.mag_w ∨ 0 < cfg.log_mag_w)) ∨
      0 < cfg.loud_w) :
    SpectralLoss_forward S cfg input_audio target_audio loss_type reduction =
      none := by
  have hlf : ∀ a b, loss_func loss_type a b = none :=
    loss_func_unsupported h
  rcases htrig with ⟨hne, hw⟩ | hloud
  · obtain ⟨s, t, he⟩ : ∃ s t, cfg.fft_sizes = s :: t := by
      cases hs : cfg.fft_sizes with
      | nil => exact absurd hs hne
      | cons s t => exact ⟨s, t, rfl⟩
    unfold SpectralLoss_forward MultiscaleFFT
    simp only [List.zip_map', he, List.map_cons, List.zip_cons_cons,
      List.foldl_cons]
    have h0 : spectralStep S cfg loss_type (some 0)
        (specOfSize S input_audio s cfg.overlap,
         specOfSize S target_audio s cfg.overlap) = none := by
      unfold spectralStep
      rcases hw with hm | hl
      · rw [if_pos hm, hlf, qfMul_some_none, qfAdd_none_right]
        by_cases hlg : 0 < cfg.log_mag_w
        · rw [if_pos hlg, qfAdd_none_left]
        · rw [if_neg hlg]
      · rw [if_pos hl]
        simp only [hlf, qfMul_some_none, qfAdd_none_right]
    rw [h0, foldl_spectralStep_none]
    by_cases hld : 0 < cfg.loud_w
    · rw [if_pos hld, qfAdd_none_left]
    · rw [if_neg hld]
  · unfold SpectralLoss_forward
    simp only [hlf, qfMul_some_none, if_pos hloud, qfAdd_none_right]

/-- Witness for the amended C5 at a concrete input (default configuration,
whose `mag_w = 1` makes the first resolution's branch execute). -/
theorem spectralLoss_unsupported_fails_when_used_witness :
    SpectralLoss_forward S0 {} [[0]] [[1]] "huh" "mean" = none :=
  spectralLoss_unsupported_fails_when_used S0 {} [[0]] [[1]] "huh" "mean"
    (by unfold SupportedLoss; decide)
    (Or.inl ⟨by decide, Or.inl (by norm_num)⟩)

theorem pad_or_trim_length {α : Type} (x : List α) (e : ℕ) (p : α) :
    (pad_or_trim_to_expected_length x e p).length = e := by
  simp [pad_or_trim_to_expected_length]
  omega

/-- The loudness pipeline, as one map over the STFT frames, written from the
specification's sentence: STFT, magnitude, dB, plus A-weighting, minus the
reference, clamped at the `-range_db` floor, averaged across frequency
bins. -/
def loudnessFrames (S : Substrate) (audio : List ℚ)
    (sample_rate frame_rate n_fft : ℕ) (range_db ref_db : ℚ) : List ℚ :=
  (S.stft false n_fft (sample_rate / frame_rate) audio).map (fun frame =>
    qmean (List.zipWith (fun z w =>
        max (20 * S.logQ (S.sqrtQ (ampQ z + 1 / 100000) + 1 / 100000) + w - ref_db)
          (-range_db))
      frame (S.aWeight sample_rate n_fft)))

/-- Claim C6 (amended): `compute_loudness` is the loudness pipeline padded
with `-range_db` or trimmed to `int (duration * frame_rate)` frames — the
source truncates with Python's `int`, it does not round. -/
theorem compute_loudness_eq_floor_pipeline (S : Substrate) (audio : List ℚ)
    (sample_rate frame_rate n_fft : ℕ) (range_db ref_db : ℚ) :
    compute_loudness S audio sample_rate frame_rate n_fft range_db ref_db =
      pad_or_trim_to_expected_length
        (loudnessFrames S audio sample_rate frame_rate n_fft range_db ref_db)
        (Int.floor (((audio.length : ℚ) / (sample_rate : ℚ)) * (frame_rate : ℚ))).toNat
        (-range_db) := by
  unfold compute_loudness loudnessFrames
  simp only [List.map_map]
  congr 1
  apply List.map_congr_left
  intro row _
  simp only [Function.comp]
  rw [List.zipWith_map_left, List.map_zipWith, List.map_zipWith,
    List.zipWith_map_left]

/-- Counterexample for C6: on a 16288-sample input at 16 kHz and 50 frames/s
the duration-times-rate product is 50.9; the code keeps `int(50.9) = 50`
frames while the claim's `round(50.9) = 51`. -/
theorem compute_loudness_len_not_round :
    ¬ ((compute_loudness S0 (List.replicate 16288 (0 : ℚ)) 16000 50 2048 120
          (207 / 10)).length =
        (round ((((List.replicate 16288 (0 : ℚ)).length : ℚ) / 16000) * 50)).toNat) := by
  have hlen : (compute_loudness S0 (List.replicate 16288 (0 : ℚ)) 16000 50 2048
      120 (207 / 10)).length =
      (Int.floor ((((List.replicate 16288 (0 : ℚ)).length : ℚ) / 16000) * 50)).toNat := by
    simp only [compute_loudness, pad_or_trim_length, Nat.cast_ofNat]
  rw [hlen]
  have h1 : ((((List.replicate 16288 (0 : ℚ)).length : ℚ) / 16000) * 50) =
      509 / 10 := by
    simp only [List.length_replicate]
    norm_num
  rw [h1]
  have h2 : (Int.floor ((509 : ℚ) / 10)) = 50 :=
    Int.floor_eq_iff.mpr (by norm_num)
  have h3 : round ((509 : ℚ) / 10) = 51 := by
    rw [round_eq,
      show (509 : ℚ) / 10 + 1 / 2 = 514 / 10 by norm_num,
      show (51 : ℤ) = 51 from rfl]
    exact Int.floor_eq_iff.mpr (by norm_num)
  rw [h2, h3]
  decide

/-! ### Generators (`modules/generators.py`) -/

/-- Per-frame channel row. -/
abbrev T1 := List ℚ

/-- Batch of frame sequences of scalars / rows. -/
abbrev T2 := List (List ℚ)

/-- Batched rank-3 control tensor: batch, frames, channels. -/
abbrev T3 := List (List (List ℚ))

/-- Apply the configured scale function elementwise (the generators all test
`if self.scale_fn is not None`). -/
def scaleT3 (sf : Option (ℚ → ℚ)) (t : T3) : T3 :=
  match sf with
  | none => t
  | some g => t.map (List.map (List.map g))

/-- Elementwise scale for rank-2 tensors. -/
def scaleT2 (sf : Option (ℚ → ℚ)) (t : T2) : T2 :=
  match sf with
  | none => t
  | some g => t.map (List.map g)

/-- The channel dimension `shape[-1]` of a rank-3 tensor (tensors are rectangular in torch, so the
first row's channel count is the channel dimension). -/
def lastDim (t : T3) : ℕ := ((t.getD 0 []).getD 0 []).length

/-- Modelled from the spec: `util.get_harmonic_frequencies` (not among the
sources): per batch and frame, `f0` times `1, 2, …, n_harmonics` (the
`(k : ℚ) + 1` below is the 1-based harmonic index of 0-based channel `k`). -/
def get_harmonic_frequencies (f0 : T3) (n_harmonics : ℕ) : T3 :=
  f0.map (List.map (fun row =>
    (List.range n_harmonics).map (fun k : ℕ => row.getD 0 0 * ((k : ℚ) + 1))))

/-- Modelled from the spec: `util.remove_above_nyquist` (not among the
sources): zeroes any channel whose computed frequency is at or above
`sample_rate / 2`. -/
def remove_above_nyquist (harmonic_frequencies harmonic_distribution : T3)
    (sample_rate : ℕ) : T3 :=
  List.zipWith (List.zipWith (List.zipWith (fun fq a =>
    if ((sample_rate : ℚ) / 2) ≤ fq then 0 else a)))
    harmonic_frequencies harmonic_distribution

/-- Shape normalization: `f0_hz` may arrive with or without the trailing channel dimension
(`generators.py`, lines 36–37): the missing dimension is added. -/
def additive_f0 : T2 ⊕ T3 → T3
  | Sum.inl t => t.map (List.map (fun v => [v]))
  | Sum.inr t => t

/-- Configuration of the `Additive` generator, with the source's defaults;
`scale_fn` (defaulting to `util.exp_sigmoid` in the source) is kept abstract,
exactly as the source takes it as a constructor argument. -/
structure AdditiveCfg where
  n_samples : ℕ := 64000
  sample_rate : ℕ := 16000
  scale_fn : Option (ℚ → ℚ)
  normalize_below_nyquist : Bool := true
  n_harmonics : ℕ := 64

/-- The harmonic distribution of `Additive.forward` after scaling and the
bandlimiting step (`generators.py`, lines 33–42), before normalization. -/
def additiveBandlimited (cfg : AdditiveCfg) (harmonic_distribution : T3)
    (f0In : T2 ⊕ T3) : T3 :=
  let hdS := scaleT3 cfg.scale_fn harmonic_distribution
  if cfg.normalize_below_nyquist then
    remove_above_nyquist
      (get_harmonic_frequencies (additive_f0 f0In) (lastDim hdS)) hdS
      cfg.sample_rate
  else hdS

/-- The normalization of one frame row (`generators.py`, line 45): divide by
the channel sum; a zero sum is a floating-point `0/0` and yields NaN
(`none`). -/
def normalizeRow (r : T1) : List QF :=
  r.map (fun x => if r.sum = 0 then none else some (x / r.sum))

/-- The harmonic distribution of `Additive.forward` after its internal
normalization step. -/
def additiveNormalized (cfg : AdditiveCfg) (harmonic_distribution : T3)
    (f0In : T2 ⊕ T3) : List (List (List QF)) :=
  (additiveBandlimited cfg harmonic_distribution f0In).map
    (List.map normalizeRow)

/-- Fractional part (phase wrapping, in cycles). -/
def fracQ (x : ℚ) : ℚ := x - Int.floor x

/-- Linear interpolation between the two frames around position `p`
(replicating the last frame past the end). -/
def interpGen {α : Type} (dflt : α) (lerp : ℚ → α → α → α) (frames : List α)
    (p : ℚ) : α :=
  let j := (Int.floor p).toNat
  if j + 1 < frames.length then
    lerp (p - (j : ℚ)) (frames.getD j dflt) (frames.getD (j + 1) dflt)
  else frames.getD (frames.length - 1) dflt

/-- Modelled from the spec: `util.resample_frames` (not among the sources):
linear interpolation across the frame axis, endpoints replicated, reaching
exactly `n` output samples (constant fill for a single frame); the spec
leaves the exact alignment open, pinned here to
`position i = i * (n_frames - 1) / (n - 1)`. -/
def resampleGen {α : Type} (dflt : α) (lerp : ℚ → α → α → α) (frames : List α)
    (n : ℕ) : List α :=
  if frames.length ≤ 1 then List.replicate n (frames.getD 0 dflt)
  else (List.range n).map (fun i : ℕ =>
    interpGen dflt lerp frames
      ((i : ℚ) * ((frames.length : ℚ) - 1) / ((n : ℚ) - 1)))

/-- Rational linear interpolation. -/
def lerpQ (t a b : ℚ) : ℚ := (1 - t) * a + t * b

/-- NaN-propagating linear interpolation (`0 * NaN = NaN` as in IEEE). -/
def lerpQF (t : ℚ) (a b : QF) : QF :=
  qfAdd (qfMul (some (1 - t)) a) (qfMul (some t) b)

/-- Specialization of `resample_frames` to plain rationals. -/
def resample_frames (frames : T1) (n : ℕ) : T1 := resampleGen 0 lerpQ frames n

/-- Specialization of `resample_frames` to NaN-carrying values. -/
def resampleQF (frames : List QF) (n : ℕ) : List QF :=
  resampleGen (some 0) lerpQF frames n

/-- Cumulative sum (phase integration). -/
def cumsum (l : T1) : T1 := (l.scanl (· + ·) 0).tail

/-- The per-frame column of one harmonic's distribution weights. -/
def harmonicColumns (distb : List (List QF)) (k : ℕ) : List QF :=
  distb.map (fun r => r.getD k (some 0))

/-- One batch element of `harmonic_synthesis`: per harmonic `k` (the channel
count read from the first frame), the per-sample phase is the cumulative sum
of the upsampled instantaneous frequency `f0 * (k+1)` over the sample rate
(kept in cycles and wrapped; `sinQ` is the substrate's `sin (2 π ·)`); the
sample value sums, over harmonics, the upsampled harmonic-distribution weight
times the upsampled overall amplitude times the sine — NaN from a degenerate
distribution propagates. -/
def harmonic_synthesis_batch (S : Substrate) (f0b ampb : T2)
    (distb : List (List QF)) (n_samples sample_rate : ℕ) : List QF :=
  (List.range n_samples).map (fun i =>
    qfSum ((List.range ((distb.getD 0 []).length)).map (fun k =>
      qfMul ((resampleQF (harmonicColumns distb k) n_samples).getD i (some 0))
        (some ((resample_frames (ampb.map (fun r => r.getD 0 0))
            n_samples).getD i 0 *
          (((cumsum ((resample_frames
              ((f0b.map (fun r => r.getD 0 0)).map
                (fun v => v * ((k : ℚ) + 1))) n_samples).map
              (fun fq => fq / (sample_rate : ℚ)))).map
            (fun ph => S.sinQ (fracQ ph))).getD i 0))))))

/-- Modelled from the spec: `util.harmonic_synthesis` (not among the
sources): `harmonic_synthesis_batch` applied to each batch element. -/
def harmonic_synthesis (S : Substrate) (frequencies : T3) (amplitudes : T3)
    (harmonic_distribution : List (List (List QF))) (n_samples sample_rate : ℕ) :
    List (List QF) :=
  (frequencies.zip (amplitudes.zip harmonic_distribution)).map (fun triple =>
    harmonic_synthesis_batch S triple.1 triple.2.1 triple.2.2
      n_samples sample_rate)

/-- Embedding of `Additive.forward` (`generators.py`, lines 18–48): scale the amplitudes
and the harmonic distribution, normalize the `f0_hz` shape, bandlimit,
normalize the distribution per frame, synthesize; an explicit `n_samples`
overrides the configured one. -/
def Additive_forward (S : Substrate) (cfg : AdditiveCfg) (amplitudes : T3)
    (harmonic_distribution : T3) (f0In : T2 ⊕ T3) (n_samples : Option ℕ) :
    List (List QF) :=
  harmonic_synthesis S (additive_f0 f0In) (scaleT3 cfg.scale_fn amplitudes)
    (additiveNormalized cfg harmonic_distribution f0In)
    (n_samples.getD cfg.n_samples) cfg.sample_rate

/-- Configuration of the `Sinusoids` generator; the two scale functions
(`util.exp_sigmoid` and `util.frequencies_sigmoid` by default) are abstract
constructor arguments, as in the source. -/
structure SinusoidsCfg where
  n_samples : ℕ := 64000
  sample_rate : ℕ := 16000
  amp_scale_fn : Option (ℚ → ℚ)
  freq_scale_fn : Option (ℚ → ℚ)
  n_sinusoids : ℕ := 64

/-- Resample each per-sinusoid column of a rank-3 tensor from the frame rate
to `n` samples (the `util.resample_frames` call of `Sinusoids.forward`). -/
def resampleCols (t : T3) (n : ℕ) : T3 :=
  t.map (fun b =>
    let k := (b.getD 0 []).length
    let cols := (List.range k).map (fun c =>
      resample_frames (b.map (fun r => r.getD c 0)) n)
    (List.range n).map (fun i => cols.map (fun col => col.getD i 0)))

/-- Modelled from the spec: `util.oscillator_bank` (not among the sources):
per sinusoid, phase accumulation of the per-sample frequency over the sample
rate, a sine weighted by the per-sample amplitude, summed over sinusoids. -/
def oscillator_bank (S : Substrate) (frequency_envelope amplitude_envelope : T3)
    (sample_rate : ℕ) : T2 :=
  (frequency_envelope.zip amplitude_envelope).map (fun p =>
    let fb := p.1
    let ab := p.2
    let k := (fb.getD 0 []).length
    let phases := (List.range k).map (fun c =>
      cumsum ((fb.map (fun r => r.getD c 0)).map (fun v => v / (sample_rate : ℚ))))
    (List.range fb.length).map (fun i =>
      ((List.range k).map (fun c =>
        (ab.getD i []).getD c 0 *
          S.sinQ (fracQ ((phases.getD c []).getD i 0)))).sum))

/-- Embedding of `Sinusoids.forward` (`generators.py`, lines 62–85): scale amplitudes and
frequencies, resample both to `n_samples`, oscillator bank. -/
def Sinusoids_forward (S : Substrate) (cfg : SinusoidsCfg)
    (amplitudes frequencies : T3) (n_samples : Option ℕ) : T2 :=
  let n := n_samples.getD cfg.n_samples
  oscillator_bank S (resampleCols (scaleT3 cfg.freq_scale_fn frequencies) n)
    (resampleCols (scaleT3 cfg.amp_scale_fn amplitudes) n) cfg.sample_rate

/-- Configuration of the `FilteredNoise` generator, with the source's
defaults. -/
structure FilteredNoiseCfg where
  filter_size : ℕ := 257
  n_samples : ℕ := 64000
  scale_fn : Option (ℚ → ℚ)
  initial_bias : ℚ := -5
  amplitude : ℚ := 1

/-- Full convolution of a signal block with an impulse response. -/
def convolve (xs h : T1) : T1 :=
  (List.range (xs.length + h.length)).map (fun i =>
    ((List.range h.length).map (fun j =>
      if j ≤ i then h.getD j 0 * xs.getD (i - j) 0 else 0)).sum)

/-- Add `xs` into `buf` starting at offset `off` (overlap-add). -/
def addAt (buf : T1) (off : ℕ) (xs : T1) : T1 :=
  buf.mapIdx (fun i v => if off ≤ i then v + xs.getD (i - off) 0 else v)

/-- Modelled from the spec: `util.fir_filter` (not among the sources):
per-frame frequency-domain FIR design (the substrate's `idftQ` is the
zero-phase inverse transform), windowed to `filter_size`, applied blockwise
by overlap-add, producing output of the same length as the input. -/
def fir_filter (S : Substrate) (audio : T1) (freq_response : T2)
    (filter_size : ℕ) : T1 :=
  let irs := freq_response.map (fun row => (S.idftQ row).take filter_size)
  let n := audio.length
  let nf := irs.length
  if nf = 0 then audio
  else
    let block := (n + nf - 1) / nf
    let out := (List.range nf).foldl (fun buf i =>
        addAt buf (i * block)
          (convolve ((audio.drop (i * block)).take block) (irs.getD i [])))
      (List.replicate (n + filter_size) 0)
    pad_or_trim_to_expected_length out n 0

/-- Embedding of `FilteredNoise.forward` (`generators.py`, lines 104–121): scale the
frequency response (after adding `initial_bias`), draw uniform noise in
`[-1, 1]` scaled by `amplitude`, apply the FIR filter per batch element. -/
def FilteredNoise_forward (S : Substrate) (cfg : FilteredNoiseCfg)
    (freq_response : T3) (n_samples : Option ℕ) : T2 :=
  let n := n_samples.getD cfg.n_samples
  let batch_size := freq_response.length
  let fr := match cfg.scale_fn with
    | some g => freq_response.map (List.map (List.map
        (fun x => g (x + cfg.initial_bias))))
    | none => freq_response
  let audio := (List.range batch_size).map (fun b =>
    (List.range n).map (fun i => (S.randQ b i * 2 - 1) * cfg.amplitude))
  (audio.zip fr).map (fun p => fir_filter S p.1 p.2 cfg.filter_size)

/-- Configuration of the `Wavetable` generator. -/
structure WavetableCfg where
  len_waveform : ℕ
  n_samples : ℕ := 64000
  sample_rate : ℕ := 16000
  scale_fn : Option (ℚ → ℚ)

/-- Read a single-cycle table at fractional position `p ∈ [0, 1)` by linear
interpolation between adjacent entries (wrapping at the end). -/
def readTable (tbl : T1) (p : ℚ) : ℚ :=
  if tbl.length = 0 then 0
  else
    let pos := p * (tbl.length : ℚ)
    let j := (Int.floor pos).toNat
    let t := pos - (j : ℚ)
    (1 - t) * tbl.getD (j % tbl.length) 0 +
      t * tbl.getD ((j + 1) % tbl.length) 0

/-- Modelled from the spec: `util.wavetable_synthesis` (not among the
sources): per-sample phase accumulation of the upsampled `f0`, the output is
the wavetable (global, or the current frame's) read at the fractional phase,
scaled by the upsampled amplitude. -/
def wavetable_synthesis (S : Substrate) (f0 amplitudes : T2)
    (wavetable : T1 ⊕ T3) (n_samples sample_rate : ℕ) : T2 :=
  (List.range f0.length).map (fun b =>
    let f0S := resample_frames (f0.getD b []) n_samples
    let ampS := resample_frames (amplitudes.getD b []) n_samples
    let phase := (cumsum (f0S.map (fun v => v / (sample_rate : ℚ)))).map fracQ
    (List.range n_samples).map (fun i =>
      let tbl := match wavetable with
        | Sum.inl t => t
        | Sum.inr t3 =>
          let frames := t3.getD b []
          frames.getD ((i * frames.length) / n_samples) []
      ampS.getD i 0 * readTable tbl (phase.getD i 0)))

/-- Embedding of `Wavetable.forward` (`generators.py`, lines 139–156): scale the
amplitudes, synthesize from the supplied per-frame wavetable. -/
def Wavetable_forward (S : Substrate) (cfg : WavetableCfg) (amplitudes : T2)
    (wavetable : T3) (f0_hz : T2) (n_samples : Option ℕ) : T2 :=
  wavetable_synthesis S f0_hz (scaleT2 cfg.scale_fn amplitudes)
    (Sum.inr wavetable) (n_samples.getD cfg.n_samples) cfg.sample_rate

/-- Configuration of the `SawOscillator` generator. -/
structure SawCfg where
  n_samples : ℕ := 64000
  sample_rate : ℕ := 16000
  scale_fn : Option (ℚ → ℚ)

/-- The table `torch.linspace(1.0, -1.0, 2048)`: the fixed sawtooth table. -/
def sawWaveform : T1 :=
  (List.range 2048).map (fun i : ℕ => 1 - 2 * (i : ℚ) / 2047)

/-- Embedding of `SawOscillator.forward` (`generators.py`, lines 172–188): scale the
amplitudes, synthesize from the fixed sawtooth table. -/
def SawOscillator_forward (S : Substrate) (cfg : SawCfg) (amplitudes : T2)
    (f0_hz : T2) (n_samples : Option ℕ) : T2 :=
  wavetable_synthesis S f0_hz (scaleT2 cfg.scale_fn amplitudes)
    (Sum.inl sawWaveform) (n_samples.getD cfg.n_samples) cfg.sample_rate

/-! ### Claim theorems about the generators -/

/-- Claim C9: `Additive.forward` accepts `f0_hz` with or without the trailing
channel dimension and produces the same output, adding the missing dimension
internally. -/
theorem additive_f0_dim_flexible (S : Substrate) (cfg : AdditiveCfg)
    (amplitudes harmonic_distribution : T3) (f2 : T2) (n_samples : Option ℕ) :
    Additive_forward S cfg amplitudes harmonic_distribution (Sum.inl f2)
        n_samples =
      Additive_forward S cfg amplitudes harmonic_distribution
        (Sum.inr (f2.map (List.map (fun v => [v])))) n_samples := rfl

theorem getD_zero_mem {α : Type} (l : List α) (d : α) (h : l ≠ []) :
    l.getD 0 d ∈ l := by
  cases l with
  | nil => exact absurd rfl h
  | cons x t => simp [List.getD]

theorem resampleGen_length {α : Type} (dflt : α) (lerp : ℚ → α → α → α)
    (frames : List α) (n : ℕ) : (resampleGen dflt lerp frames n).length = n := by
  unfold resampleGen
  by_cases h : frames.length ≤ 1
  · simp only [if_pos h, List.length_replicate]
  · simp only [if_neg h, List.length_map, List.length_range]

theorem addAt_length (buf : T1) (off : ℕ) (xs : T1) :
    (addAt buf off xs).length = buf.length := by
  simp [addAt]

theorem fir_filter_length (S : Substrate) (audio : T1) (freq_response : T2)
    (filter_size : ℕ) :
    (fir_filter S audio freq_response filter_size).length = audio.length := by
  by_cases h : freq_response = []
  · simp [fir_filter, h]
  · simp [fir_filter, h, pad_or_trim_length]

theorem qfMul_none_left (x : QF) : qfMul none x = none := by cases x <;> rfl

theorem lerpQF_none_left (t : ℚ) (y : QF) : lerpQF t none y = none := by
  unfold lerpQF
  rw [qfMul_some_none, qfAdd_none_left]

theorem foldl_qfAdd_none : ∀ (l : List QF), l.foldl qfAdd none = none := by
  intro l
  induction l with
  | nil => rfl
  | cons x t ih => rw [List.foldl_cons, qfAdd_none_left]; exact ih

theorem qfSum_eq_none_of_mem {l : List QF} (h : none ∈ l) : qfSum l = none := by
  unfold qfSum
  suffices hgen : ∀ (l2 : List QF) (acc : QF), none ∈ l2 →
      l2.foldl qfAdd acc = none by exact hgen l (some 0) h
  intro l2
  induction l2 with
  | nil => intro acc h2; simp at h2
  | cons x t ih =>
    intro acc hmem
    rcases List.mem_cons.mp hmem with hx | ht
    · rw [List.foldl_cons, ← hx, qfAdd_none_right]
      exact foldl_qfAdd_none t
    · rw [List.foldl_cons]
      exact ih _ ht

theorem getD_map_in {α β : Type} (f : α → β) (l : List α) (i : ℕ) (d : β)
    (d' : α) (h : i < l.length) : (l.map f).getD i d = f (l.getD i d') := by
  rw [List.getD_eq_getElem _ _ (by simpa using h), List.getD_eq_getElem _ _ h,
    List.getElem_map]

theorem getD_range_map_in {β : Type} (fn : ℕ → β) (n i : ℕ) (d : β)
    (h : i < n) : ((List.range n).map fn).getD i d = fn i := by
  rw [List.getD_eq_getElem _ _ (by simpa using h), List.getElem_map,
    List.getElem_range]

theorem getD_zip_in {α β : Type} (l1 : List α) (l2 : List β) (i : ℕ)
    (d1 : α) (d2 : β) (h1 : i < l1.length) (h2 : i < l2.length) :
    (l1.zip l2).getD i (d1, d2) = (l1.getD i d1, l2.getD i d2) := by
  rw [List.getD_eq_getElem _ _ (by rw [List.length_zip]; omega),
    List.getElem_zip, List.getD_eq_getElem _ _ h1, List.getD_eq_getElem _ _ h2]

/-- A NaN frame reaches the upsampled envelope: if frame `f` is NaN and there
are at least as many samples as frames, some output sample of
`resample_frames` is NaN (a frame-aligned sample interpolates from it). -/
theorem resampleQF_none_reach {frames : List QF} {f n : ℕ}
    (hf : f < frames.length) (hn : frames.length ≤ n)
    (hnone : frames.getD f (some 0) = none) :
    ∃ i, i < n ∧ (resampleQF frames n).getD i (some 0) = none := by
  unfold resampleQF resampleGen
  by_cases h1 : frames.length ≤ 1
  · have hf0 : f = 0 := by omega
    have hn0 : 0 < n := by omega
    refine ⟨0, hn0, ?_⟩
    rw [if_pos h1]
    subst hf0
    rw [hnone]
    cases n with
    | zero => omega
    | succ m => simp [List.replicate]
  · rw [if_neg h1]
    have hF2 : 2 ≤ frames.length := by omega
    have hn2 : 2 ≤ n := le_trans hF2 hn
    have hqn : (0 : ℚ) < (n : ℚ) - 1 := by
      have h2 : (2 : ℚ) ≤ (n : ℚ) := by exact_mod_cast hn2
      linarith
    have hqF : (0 : ℚ) < (frames.length : ℚ) - 1 := by
      have h2 : (2 : ℚ) ≤ (frames.length : ℚ) := by exact_mod_cast hF2
      linarith
    by_cases hlast : f + 1 < frames.length
    · -- interior frame: the sample at ⌈f (n-1) / (F-1)⌉ interpolates from it
      set x : ℚ := (f : ℚ) * ((n : ℚ) - 1) / ((frames.length : ℚ) - 1)
        with hxdef
      have hx0 : 0 ≤ x := by positivity
      set i : ℕ := (Int.ceil x).toNat with hidef
      have hiz : ((i : ℤ)) = Int.ceil x :=
        Int.toNat_of_nonneg (Int.ceil_nonneg hx0)
      have hiq : ((i : ℚ)) = ((Int.ceil x : ℤ) : ℚ) := by exact_mod_cast hiz
      have hxle : x ≤ (i : ℚ) := by rw [hiq]; exact_mod_cast Int.le_ceil x
      have hxlt : (i : ℚ) < x + 1 := by
        rw [hiq]; exact_mod_cast Int.ceil_lt_add_one x
      have hxp : x * ((frames.length : ℚ) - 1) / ((n : ℚ) - 1) = (f : ℚ) := by
        rw [hxdef]; field_simp
      have hp1 : (f : ℚ) ≤ (i : ℚ) * ((frames.length : ℚ) - 1) / ((n : ℚ) - 1) := by
        rw [← hxp]
        gcongr
      have hp2 : (i : ℚ) * ((frames.length : ℚ) - 1) / ((n : ℚ) - 1) <
          (f : ℚ) + 1 := by
        have hr1 : ((frames.length : ℚ) - 1) / ((n : ℚ) - 1) ≤ 1 := by
          rw [div_le_one hqn]
          have hFn : (frames.length : ℚ) ≤ (n : ℚ) := by exact_mod_cast hn
          linarith
        have hstep : (i : ℚ) * ((frames.length : ℚ) - 1) / ((n : ℚ) - 1) <
            (x + 1) * ((frames.length : ℚ) - 1) / ((n : ℚ) - 1) :=
          (div_lt_div_right hqn).mpr (mul_lt_mul_of_pos_right hxlt hqF)
        have hsplit : (x + 1) * ((frames.length : ℚ) - 1) / ((n : ℚ) - 1) =
            (f : ℚ) + ((frames.length : ℚ) - 1) / ((n : ℚ) - 1) := by
          rw [← hxp]; ring
        rw [hsplit] at hstep
        linarith
      have hfloor : Int.floor ((i : ℚ) * ((frames.length : ℚ) - 1) /
          ((n : ℚ) - 1)) = (f : ℤ) := by
        rw [Int.floor_eq_iff]
        refine ⟨by exact_mod_cast hp1, ?_⟩
        push_cast
        exact hp2
      have hilt : i < n := by
        have hfF : (f : ℚ) < (frames.length : ℚ) - 1 := by
          have hc : ((f + 1 : ℕ) : ℚ) < (frames.length : ℚ) := by
            exact_mod_cast hlast
          push_cast at hc
          linarith
        have hxlt2 : x < (n : ℚ) - 1 := by
          rw [hxdef, div_lt_iff hqF]
          nlinarith [hqn, hfF]
        have hiqn : (i : ℚ) < (n : ℚ) := by linarith
        exact_mod_cast hiqn
      refine ⟨i, hilt, ?_⟩
      rw [getD_range_map_in _ _ _ _ hilt]
      show interpGen (some 0) lerpQF frames
        ((i : ℚ) * ((frames.length : ℚ) - 1) / ((n : ℚ) - 1)) = none
      unfold interpGen
      rw [hfloor, Int.toNat_natCast, if_pos hlast, hnone]
      exact lerpQF_none_left _ _
    · -- last frame: the final sample reads it directly
      have hfF : f = frames.length - 1 := by omega
      have hn1 : 1 ≤ n := by omega
      refine ⟨n - 1, by omega, ?_⟩
      rw [getD_range_map_in _ _ _ _ (by omega)]
      show interpGen (some 0) lerpQF frames
        (((n - 1 : ℕ) : ℚ) * ((frames.length : ℚ) - 1) / ((n : ℚ) - 1)) = none
      have hcast : (((n - 1 : ℕ)) : ℚ) = (n : ℚ) - 1 := by
        push_cast [Nat.cast_sub hn1]
        ring
      have hpeq : (((n - 1 : ℕ)) : ℚ) * ((frames.length : ℚ) - 1) /
          ((n : ℚ) - 1) = (frames.length : ℚ) - 1 := by
        rw [hcast]
        field_simp
      unfold interpGen
      rw [hpeq]
      have hfloor2 : Int.floor ((frames.length : ℚ) - 1) =
          (frames.length : ℤ) - 1 := by
        rw [show ((frames.length : ℚ) - 1) =
          (((frames.length : ℤ) - 1 : ℤ) : ℚ) by push_cast; ring,
          Int.floor_intCast]
      rw [hfloor2]
      have htn : ((frames.length : ℤ) - 1).toNat = frames.length - 1 := by
        omega
      rw [htn, if_neg (by omega : ¬ (frames.length - 1 + 1 < frames.length)),
        ← hfF]
      exact hnone

/-- Element of a rank-3 tensor at `(batch, frame, channel)` (`0` outside the
tensor). -/
def at3 (t : T3) (b f c : ℕ) : ℚ := ((t.getD b []).getD f []).getD c 0

/-- The `f0` value seen by `Additive.forward` at `(batch, frame)`, after the
shape normalization. -/
def f0At (f0In : T2 ⊕ T3) (b f : ℕ) : ℚ :=
  (((additive_f0 f0In).getD b []).getD f []).getD 0 0

theorem additiveBandlimited_true {cfg : AdditiveCfg}
    (h : cfg.normalize_below_nyquist = true) (hd : T3) (f0In : T2 ⊕ T3) :
    additiveBandlimited cfg hd f0In =
      remove_above_nyquist
        (get_harmonic_frequencies (additive_f0 f0In)
          (lastDim (scaleT3 cfg.scale_fn hd)))
        (scaleT3 cfg.scale_fn hd) cfg.sample_rate := by
  simp [additiveBandlimited, h]

theorem at3_bandlimit (f0T hdS : T3) (sr : ℕ) (b f c : ℕ)
    (hc : c < lastDim hdS)
    (hfreq : ((sr : ℚ) / 2) ≤
      (((f0T.getD b []).getD f []).getD 0 0) * ((c : ℚ) + 1)) :
    at3 (remove_above_nyquist (get_harmonic_frequencies f0T (lastDim hdS))
      hdS sr) b f c = 0 := by
  unfold at3 remove_above_nyquist get_harmonic_frequencies
  by_cases hb : b < (List.zipWith
      (List.zipWith (List.zipWith (fun fq a =>
        if ((sr : ℚ) / 2) ≤ fq then 0 else a)))
      (f0T.map (List.map (fun row =>
        (List.range (lastDim hdS)).map (fun k : ℕ =>
          row.getD 0 0 * ((k : ℚ) + 1))))) hdS).length
  case neg =>
    rw [List.getD_eq_default _ _ (le_of_not_lt hb)]
    simp
  rw [List.getD_eq_getElem _ _ hb, List.getElem_zipWith]
  have hblen := hb
  rw [List.length_zipWith, List.length_map, lt_min_iff] at hblen
  obtain ⟨hb1, hb2⟩ := hblen
  rw [List.getElem_map]
  by_cases hf2 : f < (List.zipWith (List.zipWith (fun fq a =>
      if ((sr : ℚ) / 2) ≤ fq then 0 else a))
      ((f0T[b]).map (fun row =>
        (List.range (lastDim hdS)).map (fun k : ℕ =>
          row.getD 0 0 * ((k : ℚ) + 1)))) (hdS[b])).length
  case neg =>
    rw [List.getD_eq_default _ _ (le_of_not_lt hf2)]
    simp
  rw [List.getD_eq_getElem _ _ hf2, List.getElem_zipWith]
  have hflen := hf2
  rw [List.length_zipWith, List.length_map, lt_min_iff] at hflen
  obtain ⟨hf1a, hf1b⟩ := hflen
  rw [List.getElem_map]
  by_cases hc2 : c < (List.zipWith (fun fq a =>
      if ((sr : ℚ) / 2) ≤ fq then 0 else a)
      ((List.range (lastDim hdS)).map (fun k : ℕ =>
        (f0T[b][f]).getD 0 0 * ((k : ℚ) + 1)))
      (hdS[b][f])).length
  case neg =>
    rw [List.getD_eq_default _ _ (le_of_not_lt hc2)]
  rw [List.getD_eq_getElem _ _ hc2, List.getElem_zipWith, List.getElem_map,
    List.getElem_range]
  rw [if_pos]
  rw [List.getD_eq_getElem _ _ hb1, List.getD_eq_getElem _ _ hf1a] at hfreq
  exact hfreq

/-- Claim C3: in `Additive.forward`, after the bandlimiting call and before
normalization, every channel whose harmonic frequency (`f0` times the 1-based
harmonic index) is at or above `sample_rate / 2` is exactly zero; in
particular, for `f0 = 440`, `sample_rate = 16000` and 64 harmonics, every
channel whose 1-based index exceeds 18 is exactly zero. -/
theorem additive_bandlimit_zeroes_above_nyquist :
    (∀ (cfg : AdditiveCfg) (hd : T3) (f0In : T2 ⊕ T3) (b f c : ℕ),
      cfg.normalize_below_nyquist = true →
      c < lastDim (scaleT3 cfg.scale_fn hd) →
      ((cfg.sample_rate : ℚ) / 2) ≤ f0At f0In b f * ((c : ℚ) + 1) →
      at3 (additiveBandlimited cfg hd f0In) b f c = 0) ∧
    (∀ (sf : Option (ℚ → ℚ)) (ns : ℕ) (hd : T3) (f0In : T2 ⊕ T3) (b f c : ℕ),
      lastDim (scaleT3 sf hd) = 64 → f0At f0In b f = 440 →
      18 < c + 1 → c < 64 →
      at3 (additiveBandlimited ⟨ns, 16000, sf, true, 64⟩ hd f0In) b f c = 0) := by
  have main : ∀ (cfg : AdditiveCfg) (hd : T3) (f0In : T2 ⊕ T3) (b f c : ℕ),
      cfg.normalize_below_nyquist = true →
      c < lastDim (scaleT3 cfg.scale_fn hd) →
      ((cfg.sample_rate : ℚ) / 2) ≤ f0At f0In b f * ((c : ℚ) + 1) →
      at3 (additiveBandlimited cfg hd f0In) b f c = 0 := by
    intro cfg hd f0In b f c hflag hc hfreq
    rw [additiveBandlimited_true hflag]
    exact at3_bandlimit _ _ _ b f c hc hfreq
  refine ⟨main, ?_⟩
  intro sf ns hd f0In b f c hdim hf0 hc18 hc64
  apply main ⟨ns, 16000, sf, true, 64⟩ hd f0In b f c rfl
  · rw [hdim]; exact hc64
  · rw [hf0]
    have h18 : (18 : ℚ) ≤ (c : ℚ) := by
      have hcp : 18 ≤ c := by omega
      exact_mod_cast hcp
    norm_num
    nlinarith [h18]

/-- Witness for C3 at the claim's concrete parameters: `f0 = 440 Hz`,
`sample_rate = 16000`, 64 harmonics, channel of 1-based index 20. -/
theorem additive_bandlimit_zeroes_above_nyquist_witness :
    at3 (additiveBandlimited ⟨8, 16000, some (fun _ => 1), true, 64⟩
      [[List.replicate 64 (5 : ℚ)]] (Sum.inr [[[440]]])) 0 0 19 = 0 :=
  additive_bandlimit_zeroes_above_nyquist.2 (some (fun _ => 1)) 8
    [[List.replicate 64 (5 : ℚ)]] (Sum.inr [[[440]]]) 0 0 19
    (by simp [scaleT3, lastDim]) (by simp [f0At, additive_f0])
    (by norm_num) (by norm_num)

theorem mem_zipWith_elim {α β γ : Type} {f : α → β → γ} :
    ∀ {l1 : List α} {l2 : List β} {c : γ}, c ∈ List.zipWith f l1 l2 →
      ∃ a ∈ l1, ∃ b ∈ l2, c = f a b := by
  intro l1
  induction l1 with
  | nil => intro l2 c h; simp at h
  | cons x t ih =>
    intro l2 c h
    cases l2 with
    | nil => simp at h
    | cons y u =>
      rw [List.zipWith_cons_cons] at h
      rcases List.mem_cons.mp h with h | h
      · exact ⟨x, List.mem_cons_self x t, y, List.mem_cons_self y u, h⟩
      · obtain ⟨a, ha, b, hb, rfl⟩ := ih h
        exact ⟨a, List.mem_cons_of_mem x ha, b, List.mem_cons_of_mem y hb, rfl⟩

theorem additiveBandlimited_nonneg {cfg : AdditiveCfg} {g : ℚ → ℚ}
    (hg : cfg.scale_fn = some g) (hpos : ∀ x, 0 ≤ g x) (hd : T3)
    (f0In : T2 ⊕ T3) :
    ∀ bRow ∈ additiveBandlimited cfg hd f0In, ∀ fr ∈ bRow, ∀ v ∈ fr, 0 ≤ v := by
  have hS : ∀ bRow ∈ scaleT3 cfg.scale_fn hd, ∀ fr ∈ bRow, ∀ v ∈ fr, 0 ≤ v := by
    rw [hg]
    simp only [scaleT3]
    intro bRow hb fr hf v hv
    obtain ⟨b0, _, rfl⟩ := List.mem_map.mp hb
    obtain ⟨f0r, _, rfl⟩ := List.mem_map.mp hf
    obtain ⟨x, _, rfl⟩ := List.mem_map.mp hv
    exact hpos x
  by_cases hflag : cfg.normalize_below_nyquist = true
  · rw [additiveBandlimited_true hflag]
    intro bRow hb fr hf v hv
    unfold remove_above_nyquist at hb
    obtain ⟨fb, _, db, hdb, rfl⟩ := mem_zipWith_elim hb
    obtain ⟨fr1, _, dr, hdr, rfl⟩ := mem_zipWith_elim hf
    obtain ⟨fq, _, a, ha, rfl⟩ := mem_zipWith_elim hv
    by_cases hle : ((cfg.sample_rate : ℚ) / 2) ≤ fq
    · simp [hle]
    · simpa [hle] using hS db hdb dr hdr a ha
  · have hfl : cfg.normalize_below_nyquist = false :=
      Bool.not_eq_true _ |>.mp hflag
    unfold additiveBandlimited
    rw [hfl]
    simpa using hS

theorem sum_pos_of_nonneg_of_exists_ne {r : List ℚ} (h0 : ∀ x ∈ r, 0 ≤ x)
    (hx : ∃ x ∈ r, x ≠ 0) : 0 < r.sum := by
  induction r with
  | nil => simp at hx
  | cons a t ih =>
    have ha0 : 0 ≤ a := h0 a (List.mem_cons_self a t)
    have ht0 : 0 ≤ t.sum :=
      List.sum_nonneg (fun y hy => h0 y (List.mem_cons_of_mem a hy))
    rcases hx with ⟨x, hxm, hxne⟩
    rcases List.mem_cons.mp hxm with rfl | hxt
    · have hxpos : 0 < x := lt_of_le_of_ne ha0 (Ne.symm hxne)
      rw [List.sum_cons]
      linarith
    · have hts : 0 < t.sum :=
        ih (fun y hy => h0 y (List.mem_cons_of_mem a hy)) ⟨x, hxt, hxne⟩
      rw [List.sum_cons]
      linarith

theorem qfSum_map_some (f : ℚ → ℚ) (r : List ℚ) :
    qfSum (r.map (fun x => some (f x))) = some ((r.map f).sum) := by
  unfold qfSum
  suffices hgen : ∀ c : ℚ,
      (r.map (fun x => some (f x))).foldl qfAdd (some c) =
        some (c + (r.map f).sum) by
    simpa using hgen 0
  induction r with
  | nil => intro c; simp
  | cons x t ih =>
    intro c
    rw [List.map_cons, List.foldl_cons]
    show (t.map (fun x => some (f x))).foldl qfAdd (some (c + f x)) = _
    rw [ih (c + f x), List.map_cons, List.sum_cons]
    congr 1
    ring

theorem sum_map_div (r : List ℚ) (s : ℚ) :
    (r.map (fun x => x / s)).sum = r.sum / s := by
  induction r with
  | nil => simp
  | cons x t ih =>
    simp only [List.map_cons, List.sum_cons, ih]
    ring

/-- Claim C2: after `Additive.forward`'s internal normalization, for every
batch element and every frame the harmonic-distribution values are
non-negative and sum to exactly 1, given a non-degenerate input (at least one
channel non-zero after bandlimiting in every frame) and the strictly positive
scale function the source installs by default (`util.exp_sigmoid`). -/
theorem additive_normalized_nonneg_sum_one (cfg : AdditiveCfg) (g : ℚ → ℚ)
    (hg : cfg.scale_fn = some g) (hpos : ∀ x, 0 < g x) (hd : T3)
    (f0In : T2 ⊕ T3)
    (hnd : ∀ bRow ∈ additiveBandlimited cfg hd f0In, ∀ fr ∈ bRow,
      ∃ v ∈ fr, v ≠ 0) :
    ∀ bRow ∈ additiveNormalized cfg hd f0In, ∀ fr ∈ bRow,
      (∀ v ∈ fr, ∃ q : ℚ, v = some q ∧ 0 ≤ q) ∧ qfSum fr = some 1 := by
  intro bRow hb fr hf
  unfold additiveNormalized at hb
  obtain ⟨b0, hb0, rfl⟩ := List.mem_map.mp hb
  obtain ⟨r, hr, rfl⟩ := List.mem_map.mp hf
  have hnn : ∀ v ∈ r, 0 ≤ v :=
    additiveBandlimited_nonneg hg (fun x => le_of_lt (hpos x)) hd f0In
      b0 hb0 r hr
  have hs : 0 < r.sum := sum_pos_of_nonneg_of_exists_ne hnn (hnd b0 hb0 r hr)
  have hs0 : r.sum ≠ 0 := ne_of_gt hs
  constructor
  · intro v hv
    unfold normalizeRow at hv
    obtain ⟨x, hx, rfl⟩ := List.mem_map.mp hv
    rw [if_neg hs0]
    exact ⟨x / r.sum, rfl, div_nonneg (hnn x hx) (le_of_lt hs)⟩
  · unfold normalizeRow
    simp only [if_neg hs0]
    rw [qfSum_map_some (fun x => x / r.sum) r, sum_map_div,
      div_self hs0]

/-- Witness for C2 at a concrete non-degenerate input (two harmonics below
Nyquist, constant positive scale function): the first frame's normalized
distribution sums to exactly 1. -/
theorem additive_normalized_nonneg_sum_one_witness :
    qfSum (((additiveNormalized ⟨4, 16000, some (fun _ => 1), true, 2⟩
      [[[5, 7]]] (Sum.inr [[[100]]])).getD 0 []).getD 0 []) = some 1 := by
  have h := additive_normalized_nonneg_sum_one
    ⟨4, 16000, some (fun _ => 1), true, 2⟩ (fun _ => 1) rfl (fun _ => one_pos)
    [[[5, 7]]] (Sum.inr [[[100]]])
    (by norm_num [additiveBandlimited, scaleT3, additive_f0, lastDim,
      get_harmonic_frequencies, remove_above_nyquist, List.range_succ])
  exact (h _ (getD_zero_mem _ _ (by norm_num [additiveNormalized,
      additiveBandlimited, scaleT3, additive_f0, lastDim,
      get_harmonic_frequencies, remove_above_nyquist, List.range_succ]))
    _ (getD_zero_mem _ _ (by norm_num [additiveNormalized,
      additiveBandlimited, scaleT3, additive_f0, lastDim, normalizeRow,
      get_harmonic_frequencies, remove_above_nyquist,
      List.range_succ]))).2

theorem scaleT3_length (sf : Option (ℚ → ℚ)) (t : T3) :
    (scaleT3 sf t).length = t.length := by
  cases sf <;> simp [scaleT3]

theorem normalizeRow_length (r : T1) : (normalizeRow r).length = r.length := by
  simp [normalizeRow]

theorem normalizeRow_of_sum_zero {r : T1} (h : r.sum = 0) :
    normalizeRow r = r.map (fun _ => none) := by
  simp [normalizeRow, h]

/-- If a frame's distribution column is NaN at frame `f` and the sample count
covers the frames, some output sample of `harmonic_synthesis_batch` is NaN. -/
theorem harmonic_synthesis_batch_none (S : Substrate) (f0b ampb : T2)
    (distb : List (List QF)) (n sr : ℕ) (f : ℕ)
    (hf : f < distb.length) (hn : distb.length ≤ n)
    (hnh : (distb.getD 0 []).length ≠ 0)
    (hcol : (distb.getD f []).getD 0 (some 0) = none) :
    ∃ i, (harmonic_synthesis_batch S f0b ampb distb n sr).getD i (some 0) =
      none := by
  have hfcol : f < (harmonicColumns distb 0).length := by
    simpa [harmonicColumns] using hf
  have hcl : (harmonicColumns distb 0).getD f (some 0) = none := by
    unfold harmonicColumns
    rw [getD_map_in _ _ f (some 0) [] hf]
    exact hcol
  obtain ⟨i, hi, hri⟩ := resampleQF_none_reach hfcol
    (by simpa [harmonicColumns] using hn) hcl
  refine ⟨i, ?_⟩
  unfold harmonic_synthesis_batch
  rw [getD_range_map_in _ _ _ _ hi]
  apply qfSum_eq_none_of_mem
  refine List.mem_map.mpr ⟨0, List.mem_range.mpr (Nat.pos_of_ne_zero hnh), ?_⟩
  rw [hri]
  exact qfMul_none_left _

/-- Claim C7: if, for some frame of some batch element, every
harmonic-distribution channel is zero after bandlimiting, then (given a
shape-consistent input whose sample count covers the frame count) the
normalization divides by zero — the divisor is that frame's channel sum,
exactly `0`, with no epsilon guard — the normalized distribution of that
frame is entirely NaN, and the synthesized audio of that batch element
contains a NaN sample. -/
theorem additive_degenerate_frame_nan (S : Substrate) (cfg : AdditiveCfg)
    (amplitudes harmonic_distribution : T3) (f0In : T2 ⊕ T3)
    (n_samples : Option ℕ) (b f : ℕ)
    (hb : b < (additiveBandlimited cfg harmonic_distribution f0In).length)
    (hf : f < ((additiveBandlimited cfg harmonic_distribution f0In).getD b
      []).length)
    (hdeg : ∀ v ∈ ((additiveBandlimited cfg harmonic_distribution
      f0In).getD b []).getD f [], v = 0)
    (hne : ((additiveBandlimited cfg harmonic_distribution f0In).getD b
      []).getD f [] ≠ [])
    (hrow0 : ((additiveBandlimited cfg harmonic_distribution f0In).getD b
      []).getD 0 [] ≠ [])
    (hbf0 : b < (additive_f0 f0In).length)
    (hbamp : b < amplitudes.length)
    (hFn : ((additiveBandlimited cfg harmonic_distribution f0In).getD b
      []).length ≤ n_samples.getD cfg.n_samples) :
    (((additiveBandlimited cfg harmonic_distribution f0In).getD b []).getD f
      []).sum = 0 ∧
    (∀ v ∈ ((additiveNormalized cfg harmonic_distribution f0In).getD b
      []).getD f [], v = none) ∧
    ((additiveNormalized cfg harmonic_distribution f0In).getD b []).getD f []
      ≠ [] ∧
    (∃ i, ((Additive_forward S cfg amplitudes harmonic_distribution f0In
      n_samples).getD b []).getD i (some 0) = none) := by
  have hsum : (((additiveBandlimited cfg harmonic_distribution f0In).getD b
      []).getD f []).sum = 0 := List.sum_eq_zero hdeg
  have hNb : (additiveNormalized cfg harmonic_distribution f0In).getD b [] =
      ((additiveBandlimited cfg harmonic_distribution f0In).getD b []).map
        normalizeRow := by
    unfold additiveNormalized
    exact getD_map_in _ _ b [] [] hb
  have hNbf : ((additiveNormalized cfg harmonic_distribution f0In).getD b
      []).getD f [] =
      normalizeRow (((additiveBandlimited cfg harmonic_distribution
        f0In).getD b []).getD f []) := by
    rw [hNb]
    exact getD_map_in _ _ f [] [] hf
  have hnr : normalizeRow (((additiveBandlimited cfg harmonic_distribution
      f0In).getD b []).getD f []) =
      (((additiveBandlimited cfg harmonic_distribution f0In).getD b []).getD
        f []).map (fun _ => none) := normalizeRow_of_sum_zero hsum
  refine ⟨hsum, ?_, ?_, ?_⟩
  · intro v hv
    rw [hNbf, hnr] at hv
    obtain ⟨x, _, rfl⟩ := List.mem_map.mp hv
    rfl
  · rw [hNbf, hnr]
    simpa using hne
  · -- the audio output contains a NaN sample
    have hbampS : b < (scaleT3 cfg.scale_fn amplitudes).length := by
      rw [scaleT3_length]; exact hbamp
    have hbN : b < (additiveNormalized cfg harmonic_distribution
        f0In).length := by
      unfold additiveNormalized
      simpa using hb
    have hbzip2 : b < ((scaleT3 cfg.scale_fn amplitudes).zip
        (additiveNormalized cfg harmonic_distribution f0In)).length := by
      rw [List.length_zip]
      omega
    have hbzip : b < ((additive_f0 f0In).zip
        ((scaleT3 cfg.scale_fn amplitudes).zip
          (additiveNormalized cfg harmonic_distribution f0In))).length := by
      rw [List.length_zip, List.length_zip]
      omega
    have hrow : (Additive_forward S cfg amplitudes harmonic_distribution f0In
        n_samples).getD b [] =
        harmonic_synthesis_batch S ((additive_f0 f0In).getD b [])
          ((scaleT3 cfg.scale_fn amplitudes).getD b [])
          ((additiveNormalized cfg harmonic_distribution f0In).getD b [])
          (n_samples.getD cfg.n_samples) cfg.sample_rate := by
      unfold Additive_forward harmonic_synthesis
      rw [getD_map_in _ _ b [] ([], ([], [])) hbzip,
        getD_zip_in _ _ b [] ([], []) hbf0 hbzip2,
        getD_zip_in _ _ b [] [] hbampS hbN]
    have h0lt : 0 < ((additiveBandlimited cfg harmonic_distribution
        f0In).getD b []).length := lt_of_le_of_lt (Nat.zero_le f) hf
    have hdist0 : ((additiveNormalized cfg harmonic_distribution f0In).getD b
        []).getD 0 [] =
        normalizeRow (((additiveBandlimited cfg harmonic_distribution
          f0In).getD b []).getD 0 []) := by
      rw [hNb]
      exact getD_map_in _ _ 0 [] [] h0lt
    have hnh : (((additiveNormalized cfg harmonic_distribution f0In).getD b
        []).getD 0 []).length ≠ 0 := by
      rw [hdist0, normalizeRow_length]
      exact fun hlen => hrow0 (List.eq_nil_of_length_eq_zero hlen)
    have hflen : f < ((additiveNormalized cfg harmonic_distribution
        f0In).getD b []).length := by
      rw [hNb, List.length_map]
      exact hf
    have hfn : ((additiveNormalized cfg harmonic_distribution f0In).getD b
        []).length ≤ n_samples.getD cfg.n_samples := by
      rw [hNb, List.length_map]
      exact hFn
    have hcol : (((additiveNormalized cfg harmonic_distribution f0In).getD b
        []).getD f []).getD 0 (some 0) = none := by
      rw [hNbf, hnr]
      have hpos : 0 < (((additiveBandlimited cfg harmonic_distribution
          f0In).getD b []).getD f []).length := List.length_pos.mpr hne
      rw [getD_map_in _ _ 0 (some 0) 0 hpos]
    obtain ⟨i, hri⟩ := harmonic_synthesis_batch_none S
      ((additive_f0 f0In).getD b [])
      ((scaleT3 cfg.scale_fn amplitudes).getD b [])
      ((additiveNormalized cfg harmonic_distribution f0In).getD b [])
      (n_samples.getD cfg.n_samples) cfg.sample_rate f hflen hfn hnh hcol
    exact ⟨i, by rw [hrow]; exact hri⟩

/-- Witness for C7: one frame, one harmonic at 9000 Hz with a 16 kHz sample
rate — the only channel is bandlimited to zero, the frame sum is zero, the
normalized frame is NaN, and the two output samples contain NaN. -/
theorem additive_degenerate_frame_nan_witness :
    (((additiveBandlimited ⟨2, 16000, some (fun _ => 1), true, 1⟩ [[[3]]]
      (Sum.inr [[[9000]]])).getD 0 []).getD 0 []).sum = 0 ∧
    (((additiveNormalized ⟨2, 16000, some (fun _ => 1), true, 1⟩ [[[3]]]
      (Sum.inr [[[9000]]])).getD 0 []).getD 0 []).getD 0 (some 0) = none ∧
    ((additiveNormalized ⟨2, 16000, some (fun _ => 1), true, 1⟩ [[[3]]]
      (Sum.inr [[[9000]]])).getD 0 []).getD 0 [] ≠ [] ∧
    (∃ i, ((Additive_forward S0 ⟨2, 16000, some (fun _ => 1), true, 1⟩
      [[[1]]] [[[3]]] (Sum.inr [[[9000]]]) none).getD 0 []).getD i (some 0) =
      none) := by
  have h := additive_degenerate_frame_nan S0
    ⟨2, 16000, some (fun _ => 1), true, 1⟩
    [[[1]]] [[[3]]] (Sum.inr [[[9000]]]) none 0 0
    (by norm_num [additiveBandlimited, scaleT3, additive_f0, lastDim,
      get_harmonic_frequencies, remove_above_nyquist, List.range_succ])
    (by norm_num [additiveBandlimited, scaleT3, additive_f0, lastDim,
      get_harmonic_frequencies, remove_above_nyquist, List.range_succ])
    (by norm_num [additiveBandlimited, scaleT3, additive_f0, lastDim,
      get_harmonic_frequencies, remove_above_nyquist, List.range_succ])
    (by norm_num [additiveBandlimited, scaleT3, additive_f0, lastDim,
      get_harmonic_frequencies, remove_above_nyquist, List.range_succ])
    (by norm_num [additiveBandlimited, scaleT3, additive_f0, lastDim,
      get_harmonic_frequencies, remove_above_nyquist, List.range_succ])
    (by norm_num [additive_f0])
    (by norm_num)
    (by norm_num [additiveBandlimited, scaleT3, additive_f0, lastDim,
      get_harmonic_frequencies, remove_above_nyquist, List.range_succ])
  exact ⟨h.1, h.2.1 _ (getD_zero_mem _ _ h.2.2.1), h.2.2.1, h.2.2.2⟩

/-- Claim C4: every generator's output rows have last-dimension length equal
to `n_samples`, where an explicit argument takes precedence over the
configured default (`Option.getD`), the default applying when the argument is
omitted. -/
theorem generators_output_length (S : Substrate) :
    (∀ (cfg : AdditiveCfg) (amps hd : T3) (f0In : T2 ⊕ T3) (n : Option ℕ),
      ∀ row ∈ Additive_forward S cfg amps hd f0In n,
        row.length = n.getD cfg.n_samples) ∧
    (∀ (cfg : SinusoidsCfg) (amps freqs : T3) (n : Option ℕ),
      ∀ row ∈ Sinusoids_forward S cfg amps freqs n,
        row.length = n.getD cfg.n_samples) ∧
    (∀ (cfg : FilteredNoiseCfg) (freq_response : T3) (n : Option ℕ),
      ∀ row ∈ FilteredNoise_forward S cfg freq_response n,
        row.length = n.getD cfg.n_samples) ∧
    (∀ (cfg : WavetableCfg) (amps : T2) (wavetable : T3) (f0 : T2)
        (n : Option ℕ),
      ∀ row ∈ Wavetable_forward S cfg amps wavetable f0 n,
        row.length = n.getD cfg.n_samples) ∧
    (∀ (cfg : SawCfg) (amps f0 : T2) (n : Option ℕ),
      ∀ row ∈ SawOscillator_forward S cfg amps f0 n,
        row.length = n.getD cfg.n_samples) := by
  refine ⟨?_, ?_, ?_, ?_, ?_⟩
  · intro cfg amps hd f0In n row hrow
    unfold Additive_forward harmonic_synthesis at hrow
    obtain ⟨tr, _, rfl⟩ := List.mem_map.mp hrow
    simp [harmonic_synthesis_batch]
  · intro cfg amps freqs n row hrow
    unfold Sinusoids_forward oscillator_bank at hrow
    obtain ⟨p, hp, rfl⟩ := List.mem_map.mp hrow
    obtain ⟨a, b, rfl⟩ : ∃ a b, p = (a, b) := ⟨p.1, p.2, rfl⟩
    have hfb : a ∈ resampleCols (scaleT3 cfg.freq_scale_fn freqs)
        (n.getD cfg.n_samples) := (List.of_mem_zip hp).1
    obtain ⟨batch, _, hEq⟩ := List.mem_map.mp hfb
    simp only [List.length_map, List.length_range]
    rw [← hEq]
    simp
  · intro cfg freq_response n row hrow
    unfold FilteredNoise_forward at hrow
    obtain ⟨p, hp, rfl⟩ := List.mem_map.mp hrow
    obtain ⟨a, b, rfl⟩ : ∃ a b, p = (a, b) := ⟨p.1, p.2, rfl⟩
    have haud : a ∈ (List.range freq_response.length).map (fun bi =>
        (List.range (n.getD cfg.n_samples)).map (fun i =>
          (S.randQ bi i * 2 - 1) * cfg.amplitude)) := (List.of_mem_zip hp).1
    obtain ⟨bi, _, hEq⟩ := List.mem_map.mp haud
    rw [fir_filter_length, ← hEq]
    simp
  · intro cfg amps wavetable f0 n row hrow
    unfold Wavetable_forward wavetable_synthesis at hrow
    obtain ⟨b, _, rfl⟩ := List.mem_map.mp hrow
    simp
  · intro cfg amps f0 n row hrow
    unfold SawOscillator_forward wavetable_synthesis at hrow
    obtain ⟨b, _, rfl⟩ := List.mem_map.mp hrow
    simp

/-- Witness for C4: each generator evaluated on a small concrete input, once
with an explicit override differing from the configured default and once with
the argument omitted. -/
theorem generators_output_length_witness :
    ((Additive_forward S0
        { n_samples := 2, sample_rate := 1, scale_fn := some (fun _ => 1),
          normalize_below_nyquist := true, n_harmonics := 2 }
        [[[1]]] [[[1, 1]]] (Sum.inr [[[100]]]) (some 3)).getD 0 []).length = 3 ∧
    ((Additive_forward S0
        { n_samples := 2, sample_rate := 1, scale_fn := some (fun _ => 1),
          normalize_below_nyquist := true, n_harmonics := 2 }
        [[[1]]] [[[1, 1]]] (Sum.inr [[[100]]]) none).getD 0 []).length = 2 ∧
    ((Sinusoids_forward S0
        { n_samples := 2, sample_rate := 1, amp_scale_fn := none,
          freq_scale_fn := none, n_sinusoids := 1 }
        [[[1]]] [[[1]]] (some 3)).getD 0 []).length = 3 ∧
    ((FilteredNoise_forward S0
        { filter_size := 1, n_samples := 2, scale_fn := none,
          initial_bias := -5, amplitude := 1 }
        [[[0]]] (some 3)).getD 0 []).length = 3 ∧
    ((Wavetable_forward S0
        { len_waveform := 2, n_samples := 2, sample_rate := 1,
          scale_fn := none }
        [[1]] [[[1, 1]]] [[0]] (some 3)).getD 0 []).length = 3 ∧
    ((SawOscillator_forward S0
        { n_samples := 2, sample_rate := 1, scale_fn := none }
        [[1]] [[0]] (some 3)).getD 0 []).length = 3 := by
  have h := generators_output_length S0
  refine ⟨?_, ?_, ?_, ?_, ?_, ?_⟩
  · exact h.1 ⟨2, 1, some (fun _ => 1), true, 2⟩ [[[1]]] [[[1, 1]]]
      (Sum.inr [[[100]]]) (some 3) _ (getD_zero_mem _ _ (by
        simp [Additive_forward, harmonic_synthesis, additiveNormalized,
          additiveBandlimited, scaleT3, additive_f0, get_harmonic_frequencies,
          remove_above_nyquist, lastDim]))
  · exact h.1 ⟨2, 1, some (fun _ => 1), true, 2⟩ [[[1]]] [[[1, 1]]]
      (Sum.inr [[[100]]]) none _ (getD_zero_mem _ _ (by
        simp [Additive_forward, harmonic_synthesis, additiveNormalized,
          additiveBandlimited, scaleT3, additive_f0, get_harmonic_frequencies,
          remove_above_nyquist, lastDim]))
  · exact h.2.1 ⟨2, 1, none, none, 1⟩ [[[1]]] [[[1]]] (some 3) _
      (getD_zero_mem _ _ (by
        simp [Sinusoids_forward, oscillator_bank, resampleCols, scaleT3]))
  · exact h.2.2.1 ⟨1, 2, none, -5, 1⟩ [[[0]]] (some 3) _
      (getD_zero_mem _ _ (by simp [FilteredNoise_forward]))
  · exact h.2.2.2.1 ⟨2, 2, 1, none⟩ [[1]] [[[1, 1]]] [[0]] (some 3) _
      (getD_zero_mem _ _ (by simp [Wavetable_forward, wavetable_synthesis]))
  · exact h.2.2.2.2 ⟨2, 1, none⟩ [[1]] [[0]] (some 3) _
      (getD_zero_mem _ _ (by
        simp [SawOscillator_forward, wavetable_synthesis]))

end DDSPSynth
